import Mathlib

/-!
Verification development for the mbl repository.

Part 1 models the hierarchical record/value store of src/record.c as a
shallow embedding: records live on an explicit heap of pointer identifiers,
a record's hand-linked `prev` chain of values is the tail of an explicit
history list, and every C function becomes a pure Lean function over that
heap.

Part 2 models the lexical scanner specified in spec.md, whose tests are
src/tests/lexer/lexer_test.cpp.
-/

namespace MBL

/-- Value type code VALUE_NOTHING from record.h. -/
def VALUE_NOTHING : Int := 0

/-- Value type code VALUE_UNKNOWN from record.h. -/
def VALUE_UNKNOWN : Int := 1

/-- Value type code VALUE_TEXT from record.h. -/
def VALUE_TEXT : Int := 2

/-- A Value node of record.h: type code, text, timestamp. The C `prev`
pointer chain hanging off a record's current value is modelled as the tail
of the record's value list. -/
structure Value where
  type : Int
  text : List Char
  asof : Nat
deriving DecidableEq, Repr

/-- A Record of record.h. The `value` list is the history chain headed by
the current value (the empty list models a NULL `value` pointer); `overs`
and `unders` are nullable pointers to other records, modelled as heap
identifiers. -/
structure Record where
  name : List Char
  value : List Value
  overs : Option Nat
  unders : Option Nat
deriving DecidableEq, Repr

/-- A heap of records: pointer identifiers mapped to record contents.
Every identifier dereferences, as a valid non-NULL C pointer does; NULL is
modelled as `none` at the argument positions that admit it. -/
abbrev Heap : Type := Nat → Record

/-- Store a record at heap position i. -/
def hset (h : Heap) (i : Nat) (r : Record) : Heap :=
  fun j => if j = i then r else h j

/-- Shallow embedding of putRecordUnder (record.c lines 36-50). The three
pointer assignments of the C body are performed in source order on the
heap; the returned Int is the C return value. -/
def putRecordUnder (h : Heap) (subRecord superRecord : Option Nat) : Heap × Int :=
  match subRecord, superRecord with
  | some s, some sup =>
    let h1 := hset h s { h s with unders := (h sup).unders }
    let h2 := hset h1 sup { h1 sup with unders := some s }
    let h3 := hset h2 s { h2 s with overs := some sup }
    (h3, 1)
  | _, _ => (h, 0)

/-- Shallow embedding of assignValue (record.c lines 53-78) on a single
record; `text = none` models a NULL text pointer (early return) and `now`
models time(NULL). A new value is pushed onto the history exactly when the
current value is absent or differs in type or text. -/
def assignValue (record : Record) (type : Int) (text : Option (List Char)) (now : Nat) : Record :=
  match text with
  | none => record
  | some t =>
    match record.value with
    | [] => { record with value := ⟨type, t, now⟩ :: record.value }
    | v :: _ =>
      if v.type = type ∧ v.text = t then record
      else { record with value := ⟨type, t, now⟩ :: record.value }

/-- Inclusive slice [a, b] of a text, as produced by copySlice's strncpy of
endIndex - startIndex + 1 characters starting at startIndex. -/
def sliceOf (t : List Char) (a b : Int) : List Char :=
  (t.drop a.toNat).take (b - a + 1).toNat

/-- Shallow embedding of copySlice (record.c lines 81-122): the NULL and
index checks happen in source order; on success the destination record is
updated through assignValue with VALUE_TEXT and the inclusive slice of the
source's current text. -/
def copySlice (h : Heap) (srcRecord destRecord : Option Nat)
    (startIndex endIndex : Int) (now : Nat) : Heap :=
  match srcRecord, destRecord with
  | some s, some d =>
    if startIndex < 0 ∨ endIndex < startIndex then h
    else
      match (h s).value with
      | [] => h
      | v :: _ =>
        if startIndex ≥ (v.text.length : Int) ∨ endIndex ≥ (v.text.length : Int) then h
        else hset h d (assignValue (h d) VALUE_TEXT
               (some (sliceOf v.text startIndex endIndex)) now)
  | _, _ => h

/-- Head-of-history test mirroring assignValue's change check: the record
has a current value of the given type whose text compares equal. -/
def sameHead (record : Record) (type : Int) (t : List Char) : Bool :=
  match record.value with
  | [] => false
  | v :: _ => decide (v.type = type) && decide (v.text = t)

/-- A record used as concrete heap content in witnesses. -/
def plainRecord : Record := ⟨[ 'r' ], [], none, none⟩

/-- Heap holding the same parentless, childless, valueless record at every
identifier. -/
def aliasHeap : Heap := fun _ => plainRecord

/-- C8: assignValue is idempotent at the head of the history chain: when
the current value matches the given type and text the record is unchanged;
otherwise a new head value is installed in front of the former chain, and
a repeated call with the same type and text is a no-op. -/
theorem c8_assignValue_idempotent (r : Record) (ty : Int) (t : List Char) (now : Nat) :
    (sameHead r ty t = true → assignValue r ty (some t) now = r)
    ∧ (sameHead r ty t = false →
        (assignValue r ty (some t) now).value = Value.mk ty t now :: r.value)
    ∧ (∀ n2, assignValue (assignValue r ty (some t) now) ty (some t) n2
        = assignValue r ty (some t) now) := by
  refine ⟨?_, ?_, ?_⟩
  · intro hs
    cases hv : r.value with
    | nil => simp [sameHead, hv] at hs
    | cons v rest =>
      have h1 : v.type = ty ∧ v.text = t := by
        simpa [sameHead, hv] using hs
      simp [assignValue, hv, h1]
  · intro hs
    cases hv : r.value with
    | nil => simp [assignValue, hv]
    | cons v rest =>
      have h1 : ¬ (v.type = ty ∧ v.text = t) := by
        simp only [sameHead, hv, Bool.and_eq_false_iff, decide_eq_false_iff_not] at hs
        tauto
      simp [assignValue, hv, h1]
  · intro n2
    cases hv : r.value with
    | nil => simp [assignValue, hv]
    | cons v rest =>
      by_cases h1 : v.type = ty ∧ v.text = t
      · simp [assignValue, hv, h1]
      · simp [assignValue, hv, h1]

/-- Witness for C8 at concrete records: a matching head leaves the record
unchanged, and repeating an assignment equals doing it once. -/
theorem c8_witness :
    assignValue (Record.mk ([ 'a' ]) [Value.mk 2 ([ 'x' ]) 0] none none) 2 (some ([ 'x' ])) 5
      = Record.mk ([ 'a' ]) [Value.mk 2 ([ 'x' ]) 0] none none
    ∧ assignValue (assignValue plainRecord 1 (some ([ 'y' ])) 5) 1 (some ([ 'y' ])) 7
      = assignValue plainRecord 1 (some ([ 'y' ])) 5 := by
  exact ⟨(c8_assignValue_idempotent (Record.mk ([ 'a' ]) [Value.mk 2 ([ 'x' ]) 0] none none)
            2 ([ 'x' ]) 5).1 (by decide),
         (c8_assignValue_idempotent plainRecord 1 ([ 'y' ]) 5).2.2 7⟩

/-- C9 counterexample: with the two arguments aliased to the same record
(sub = sup = pointer 0, whose unders is NULL), the claimed post-state is
contradictory: the final unders field is the record itself, not the
superRecord's previous unders pointer. -/
theorem c9_counterexample :
    ¬ ((putRecordUnder aliasHeap (some 0) (some 0)).2 = 1
       ∧ ((putRecordUnder aliasHeap (some 0) (some 0)).1 0).unders = some 0
       ∧ ((putRecordUnder aliasHeap (some 0) (some 0)).1 0).overs = some 0
       ∧ ((putRecordUnder aliasHeap (some 0) (some 0)).1 0).unders
           = (aliasHeap 0).unders) := by
  decide

/-- C9 (amended with distinct records): putRecordUnder returns 0 and
leaves the heap unchanged when either argument is NULL; for distinct
non-NULL records it returns 1, links superRecord's unders to subRecord,
subRecord's overs to superRecord, and overwrites subRecord's unders with
superRecord's previous unders pointer. -/
theorem c9_putRecordUnder (h : Heap) :
    (∀ sup, putRecordUnder h none sup = (h, 0))
    ∧ (∀ sub, putRecordUnder h sub none = (h, 0))
    ∧ (∀ s sup, s ≠ sup →
        (putRecordUnder h (some s) (some sup)).2 = 1
        ∧ ((putRecordUnder h (some s) (some sup)).1 sup).unders = some s
        ∧ ((putRecordUnder h (some s) (some sup)).1 s).overs = some sup
        ∧ ((putRecordUnder h (some s) (some sup)).1 s).unders = (h sup).unders) := by
  refine ⟨fun sup => rfl, ?_, ?_⟩
  · intro sub
    cases sub <;> rfl
  · intro s sup hne
    have hne2 : sup ≠ s := Ne.symm hne
    refine ⟨rfl, ?_, ?_, ?_⟩ <;>
      simp [putRecordUnder, hset, hne, hne2]

/-- Witness for C9 at a concrete heap and distinct pointers 0 and 1. -/
theorem c9_witness :
    putRecordUnder aliasHeap none (some 1) = (aliasHeap, 0)
    ∧ ((putRecordUnder aliasHeap (some 0) (some 1)).1 1).unders = some 0 := by
  exact ⟨(c9_putRecordUnder aliasHeap).1 (some 1),
         ((c9_putRecordUnder aliasHeap).2.2 0 1 (by decide)).2.1⟩

/-- C10: copySlice leaves the heap (and so the destination record)
unchanged on every error branch, and otherwise updates the destination
through assignValue with VALUE_TEXT and the inclusive slice
[startIndex, endIndex] of the source's current text. -/
theorem c10_copySlice (h : Heap) (a b : Int) (now : Nat) :
    (∀ d, copySlice h none d a b now = h)
    ∧ (∀ s, copySlice h s none a b now = h)
    ∧ (∀ s d, a < 0 → copySlice h (some s) (some d) a b now = h)
    ∧ (∀ s d, b < a → copySlice h (some s) (some d) a b now = h)
    ∧ (∀ s d, (h s).value = [] → copySlice h (some s) (some d) a b now = h)
    ∧ (∀ s d v rest, (h s).value = v :: rest →
        a ≥ (v.text.length : Int) ∨ b ≥ (v.text.length : Int) →
        copySlice h (some s) (some d) a b now = h)
    ∧ (∀ s d v rest, (h s).value = v :: rest →
        0 ≤ a → a ≤ b → b < (v.text.length : Int) →
        copySlice h (some s) (some d) a b now
          = hset h d (assignValue (h d) VALUE_TEXT (some (sliceOf v.text a b)) now)) := by
  refine ⟨fun d => rfl, ?_, ?_, ?_, ?_, ?_, ?_⟩
  · intro s
    cases s <;> rfl
  · intro s d ha
    have hor : a < 0 ∨ b < a := Or.inl ha
    simp [copySlice, hor]
  · intro s d hb
    have hor : a < 0 ∨ b < a := Or.inr hb
    simp [copySlice, hor]
  · intro s d hv
    by_cases hor : a < 0 ∨ b < a
    · simp [copySlice, hor]
    · simp [copySlice, hor, hv]
  · intro s d v rest hv hbound
    by_cases hor : a < 0 ∨ b < a
    · simp [copySlice, hor]
    · simp [copySlice, hor, hv, hbound]
  · intro s d v rest hv ha hab hb
    have hor : ¬ (a < 0 ∨ b < a) := by omega
    have hbound : ¬ (a ≥ (v.text.length : Int) ∨ b ≥ (v.text.length : Int)) := by omega
    simp [copySlice, hor, hv, hbound]

/-- Heap whose records carry the text value "hello"; used to witness C10. -/
def sliceHeap : Heap :=
  fun _ => Record.mk ([ 's' ]) [Value.mk 2 ([ 'h', 'e', 'l', 'l', 'o' ]) 0] none none

/-- Witness for C10: a NULL destination leaves the heap unchanged, and a
valid slice request copies characters 1 through 3 of "hello" into the
destination record through assignValue. -/
theorem c10_witness :
    copySlice sliceHeap (some 0) none 1 3 9 = sliceHeap
    ∧ copySlice sliceHeap (some 0) (some 1) 1 3 9
        = hset sliceHeap 1 (assignValue (sliceHeap 1) VALUE_TEXT
            (some (sliceOf ([ 'h', 'e', 'l', 'l', 'o' ]) 1 3)) 9) := by
  exact ⟨(c10_copySlice sliceHeap 1 3 9).2.1 (some 0),
         (c10_copySlice sliceHeap 1 3 9).2.2.2.2.2.2 0 1
           (Value.mk 2 ([ 'h', 'e', 'l', 'l', 'o' ]) 0) [] rfl
           (by decide) (by decide) (by decide)⟩

/-- Modelled from the spec: the (line, column) part of the scanner's
Position Tracker; the byte offset is implicit in the remaining buffer. The
lexer implementation (lexer.hpp / lexer.cpp) is absent from the sources,
only its tests are present, so this whole scanner is built from spec.md. -/
structure Pos where
  line : Nat
  col : Nat
deriving DecidableEq, Repr

/-- Modelled from the spec: the Position Tracker starts at line 1,
column 1. -/
def initPos : Pos := ⟨1, 1⟩

/-- Modelled from the spec: consuming a character advances the tracker;
a newline resets column to 1 and increments line, any other character
increments column by 1. -/
def step (p : Pos) (c : Char) : Pos :=
  if c = '\n' then ⟨p.line + 1, 1⟩ else ⟨p.line, p.col + 1⟩

/-- Modelled from the spec: the closed token kind enumeration of the
scanner (missing lexer.hpp). -/
inductive TokenType where
  | END_OF_FILE | NEWLINE
  | IF | THEN | ELSE | WHILE | DO | FOR | IN | FUNCTION | RETURN
  | BOOLEAN | UNKNOWN | NUMBER | MONEY | TIME | TEXT
  | COMMENT_START | COMMENT_END
  | ASSIGN | GREATER | LESS | DOT | LEFT_PAREN | RIGHT_PAREN | ERROR
deriving DecidableEq, Repr

/-- Modelled from the spec: an immutable token: kind, exact consumed
lexeme (an error message for ERROR tokens), and the 1-based line/column of
its first character. -/
structure Token where
  kind : TokenType
  lexeme : List Char
  line : Nat
  col : Nat
deriving DecidableEq, Repr

/-- One emission of the scanning engine: either a produced token or a span
of source characters discarded as whitespace or comment interior. -/
inductive Item where
  | tok (t : Token)
  | skip (s : List Char)
deriving DecidableEq, Repr

/-- ASCII alphabetic test used by the scanner's dispatch. -/
def isAlphaC (c : Char) : Bool :=
  decide (65 ≤ c.toNat ∧ c.toNat ≤ 90) || decide (97 ≤ c.toNat ∧ c.toNat ≤ 122)

/-- ASCII digit test used by the scanner's dispatch. -/
def isDigitC (c : Char) : Bool :=
  decide (48 ≤ c.toNat ∧ c.toNat ≤ 57)

/-- ASCII uppercase test used by the money sub-scanner's currency code. -/
def isUpperC (c : Char) : Bool :=
  decide (65 ≤ c.toNat ∧ c.toNat ≤ 90)

/-- Modelled from the spec: a bare word starts with an alphabetic or
underscore character. -/
def isWordStart (c : Char) : Bool :=
  isAlphaC c || c == '_'

/-- Modelled from the spec: a bare word continues over alphanumeric or
underscore characters. -/
def isWordChar (c : Char) : Bool :=
  isAlphaC c || isDigitC c || c == '_'

/-- Modelled from the spec: non-newline whitespace (space, tab, carriage
return) is consumed without emitting a token. -/
def isWsC (c : Char) : Bool :=
  c == ' ' || c == '\t' || c == '\r'

/-- Modelled from the spec: the Keyword Table consulted by the Text
sub-scanner: nine reserved words, the boolean literals, and unknown; any
other bare word is generic TEXT. -/
def classifyWord (w : List Char) : TokenType :=
  if w = ("if".data) then .IF
  else if w = ("then".data) then .THEN
  else if w = ("else".data) then .ELSE
  else if w = ("while".data) then .WHILE
  else if w = ("do".data) then .DO
  else if w = ("for".data) then .FOR
  else if w = ("in".data) then .IN
  else if w = ("function".data) then .FUNCTION
  else if w = ("return".data) then .RETURN
  else if w = ("true".data) then .BOOLEAN
  else if w = ("false".data) then .BOOLEAN
  else if w = ("unknown".data) then .UNKNOWN
  else .TEXT

/-- Modelled from the spec: single-character punctuation recognized by the
dispatch; anything unlisted is an unrecognized character. -/
def punctType (c : Char) : Option TokenType :=
  if c = '=' then some .ASSIGN
  else if c = '>' then some .GREATER
  else if c = '<' then some .LESS
  else if c = '.' then some .DOT
  else if c = '(' then some .LEFT_PAREN
  else if c = ')' then some .RIGHT_PAREN
  else none

/-- Modelled from the spec: diagnostic message of an unterminated quoted
text literal. -/
def msgUntermString : List Char := ("Unterminated string").data

/-- Modelled from the spec: diagnostic message of an unterminated comment
region. -/
def msgUntermComment : List Char := ("Unterminated comment").data

/-- Modelled from the spec: diagnostic message of an unrecognized
character. -/
def msgUnexpected : List Char := ("Unexpected character").data

/-- Modelled from the spec: maximal run of bare-word characters. -/
def takeWord : List Char → List Char × List Char
  | [] => ([], [])
  | c :: rest =>
    if isWordChar c then
      let r := takeWord rest
      (c :: r.1, r.2)
    else ([], c :: rest)

/-- Modelled from the spec: run of digits in which an underscore is
consumed only when immediately followed by a digit (its left neighbour in
a number literal is always a digit). -/
def takeNum : List Char → List Char × List Char
  | [] => ([], [])
  | c :: rest =>
    if isDigitC c then
      let r := takeNum rest
      (c :: r.1, r.2)
    else if c = '_' then
      match rest with
      | d :: _ =>
        if isDigitC d then
          let r := takeNum rest
          (c :: r.1, r.2)
        else ([], c :: rest)
      | [] => ([], c :: rest)
    else ([], c :: rest)

/-- Modelled from the spec: the Number sub-scanner after its leading
digit: more digits with underscore separators, then at most one decimal
point that must be followed by a digit. -/
def scanNumberRest (l : List Char) : List Char × List Char :=
  match (takeNum l).2 with
  | '.' :: d :: rest2 =>
    if isDigitC d then
      ((takeNum l).1 ++ '.' :: (takeNum (d :: rest2)).1, (takeNum (d :: rest2)).2)
    else takeNum l
  | _ => takeNum l

/-- Modelled from the spec: run of digits in which a comma separator is
consumed only when immediately followed by a digit. -/
def takeMoneyInt : List Char → List Char × List Char
  | [] => ([], [])
  | c :: rest =>
    if isDigitC c then
      let r := takeMoneyInt rest
      (c :: r.1, r.2)
    else if c = ',' then
      match rest with
      | d :: _ =>
        if isDigitC d then
          let r := takeMoneyInt rest
          (c :: r.1, r.2)
        else ([], c :: rest)
      | [] => ([], c :: rest)
    else ([], c :: rest)

/-- Modelled from the spec: plain digit run (the cents of a money
literal). -/
def takeDigits : List Char → List Char × List Char
  | [] => ([], [])
  | c :: rest =>
    if isDigitC c then
      let r := takeDigits rest
      (c :: r.1, r.2)
    else ([], c :: rest)

/-- Modelled from the spec: uppercase run (the currency code of a money
literal). -/
def takeUpper : List Char → List Char × List Char
  | [] => ([], [])
  | c :: rest =>
    if isUpperC c then
      let r := takeUpper rest
      (c :: r.1, r.2)
    else ([], c :: rest)

/-- Modelled from the spec: the Money sub-scanner after its leading dollar
sign: digits with comma separators, then an optional decimal point that
must be followed by a cents digit. -/
def scanMoneyCents (l : List Char) : List Char × List Char :=
  match (takeMoneyInt l).2 with
  | '.' :: d :: rest2 =>
    if isDigitC d then
      ((takeMoneyInt l).1 ++ '.' :: (takeDigits (d :: rest2)).1, (takeDigits (d :: rest2)).2)
    else takeMoneyInt l
  | _ => takeMoneyInt l

/-- Modelled from the spec: the Money sub-scanner after its leading dollar
sign, continued: after digits, separators and optional cents, an optional
uppercase currency code. -/
def scanMoneyRest (l : List Char) : List Char × List Char :=
  ((scanMoneyCents l).1 ++ (takeUpper (scanMoneyCents l).2).1,
   (takeUpper (scanMoneyCents l).2).2)

/-- Modelled from the spec: the YYYY-MM-DD date shape of a time literal,
syntactic shape only. -/
def matchDate : List Char → Option (List Char × List Char)
  | y1 :: y2 :: y3 :: y4 :: '-' :: m1 :: m2 :: '-' :: d1 :: d2 :: rest =>
    if isDigitC y1 && isDigitC y2 && isDigitC y3 && isDigitC y4
        && isDigitC m1 && isDigitC m2 && isDigitC d1 && isDigitC d2 then
      some ([ y1, y2, y3, y4, '-', m1, m2, '-', d1, d2 ], rest)
    else none
  | _ => none

/-- Modelled from the spec: the HH:MM and HH:MM:SS clock shapes of a time
literal, longest match first, syntactic shape only. -/
def matchClock : List Char → Option (List Char × List Char)
  | h1 :: h2 :: ':' :: m1 :: m2 :: rest =>
    if isDigitC h1 && isDigitC h2 && isDigitC m1 && isDigitC m2 then
      match rest with
      | ':' :: s1 :: s2 :: rest2 =>
        if isDigitC s1 && isDigitC s2 then
          some ([ h1, h2, ':', m1, m2, ':', s1, s2 ], rest2)
        else some ([ h1, h2, ':', m1, m2 ], rest)
      | _ => some ([ h1, h2, ':', m1, m2 ], rest)
    else none
  | _ => none

/-- Modelled from the spec: the Time sub-scanner after its leading at
sign: combined date-and-time, else date only, else clock only, greedily
and longest first; when no shape matches nothing further is consumed. -/
def scanTimeRest (l : List Char) : List Char × List Char :=
  match matchDate l with
  | some dr =>
    match dr.2 with
    | 'T' :: rest2 =>
      match matchClock rest2 with
      | some tr => (dr.1 ++ 'T' :: tr.1, tr.2)
      | none => dr
    | _ => dr
  | none =>
    match matchClock l with
    | some tr => tr
    | none => ([], l)

/-- Modelled from the spec: the quoted Text sub-scanner after its opening
quote: consume until an unescaped closing quote, treating backslash-quote
as an escape that does not terminate; `none` when the buffer is exhausted
first. On success the first component ends with the closing quote. -/
def scanQuoted : List Char → Option (List Char × List Char)
  | [] => none
  | '\\' :: '"' :: rest =>
    (scanQuoted rest).map fun r => ('\\' :: '"' :: r.1, r.2)
  | '"' :: rest => some ([ '"' ], rest)
  | c :: rest =>
    (scanQuoted rest).map fun r => (c :: r.1, r.2)

/-- Modelled from the spec: the Comment Scanner's search for a
single-hash closing delimiter: interior characters before it and the
buffer after it, or `none` when the buffer is exhausted first. -/
def findClose1 : List Char → Option (List Char × List Char)
  | [] => none
  | c :: rest =>
    if c = '#' then some ([], rest)
    else (findClose1 rest).map fun r => (c :: r.1, r.2)

/-- Modelled from the spec: the Comment Scanner's search for a doubled
closing delimiter, the deterministic rule suggested by spec.md for the
open question: the delimiter length is fixed by the leading run at the
opening, and a same-length run closes the region. -/
def findClose2 : List Char → Option (List Char × List Char)
  | [] => none
  | '#' :: '#' :: rest => some ([], rest)
  | c :: rest =>
    (findClose2 rest).map fun r => (c :: r.1, r.2)

/-- Modelled from the spec: the end marker token at a given position; its
lexeme is empty. -/
def eofTok (p : Pos) : Token := ⟨.END_OF_FILE, [], p.line, p.col⟩

/-- Modelled from the spec: one dispatch cycle of the Scanning Engine on
the current character `c` with remaining buffer `rest`: the emissions of
the cycle, the buffer left over, and the tracker position after the
consumed span. Unterminated string and comment diagnostics resume at
end-of-buffer. -/
def scanStep (c : Char) (rest : List Char) (p : Pos) : List Item × List Char × Pos :=
  if c = '\n' then
    ([Item.tok ⟨.NEWLINE, [c], p.line, p.col⟩], rest, step p c)
  else if isWsC c then
    ([Item.skip [c]], rest, step p c)
  else if c = '#' then
    (match rest with
     | '#' :: rest2 =>
       (match findClose2 rest2 with
        | some ir =>
          ([Item.tok ⟨.COMMENT_START, [ '#', '#' ], p.line, p.col⟩,
            Item.skip ir.1,
            Item.tok ⟨.COMMENT_END, [ '#', '#' ],
              (( '#' :: '#' :: ir.1).foldl step p).line,
              (( '#' :: '#' :: ir.1).foldl step p).col⟩],
           ir.2,
           (( '#' :: '#' :: ir.1) ++ [ '#', '#' ]).foldl step p)
        | none =>
          ([Item.tok ⟨.COMMENT_START, [ '#', '#' ], p.line, p.col⟩,
            Item.skip rest2,
            Item.tok ⟨.ERROR, msgUntermComment, p.line, p.col⟩],
           [],
           (c :: rest).foldl step p))
     | _ =>
       (match findClose1 rest with
        | some ir =>
          ([Item.tok ⟨.COMMENT_START, [ '#' ], p.line, p.col⟩,
            Item.skip ir.1,
            Item.tok ⟨.COMMENT_END, [ '#' ],
              (( '#' :: ir.1).foldl step p).line,
              (( '#' :: ir.1).foldl step p).col⟩],
           ir.2,
           (( '#' :: ir.1) ++ [ '#' ]).foldl step p)
        | none =>
          ([Item.tok ⟨.COMMENT_START, [ '#' ], p.line, p.col⟩,
            Item.skip rest,
            Item.tok ⟨.ERROR, msgUntermComment, p.line, p.col⟩],
           [],
           (c :: rest).foldl step p)))
  else if isDigitC c then
    ([Item.tok ⟨.NUMBER, c :: (scanNumberRest rest).1, p.line, p.col⟩],
     (scanNumberRest rest).2,
     (c :: (scanNumberRest rest).1).foldl step p)
  else if c = '$' then
    ([Item.tok ⟨.MONEY, c :: (scanMoneyRest rest).1, p.line, p.col⟩],
     (scanMoneyRest rest).2,
     (c :: (scanMoneyRest rest).1).foldl step p)
  else if c = '@' then
    ([Item.tok ⟨.TIME, c :: (scanTimeRest rest).1, p.line, p.col⟩],
     (scanTimeRest rest).2,
     (c :: (scanTimeRest rest).1).foldl step p)
  else if c = '"' then
    (match scanQuoted rest with
     | some br =>
       ([Item.tok ⟨.TEXT, c :: br.1, p.line, p.col⟩], br.2, (c :: br.1).foldl step p)
     | none =>
       ([Item.tok ⟨.ERROR, msgUntermString, p.line, p.col⟩], [],
        (c :: rest).foldl step p))
  else if isWordStart c then
    ([Item.tok ⟨classifyWord (c :: (takeWord rest).1), c :: (takeWord rest).1,
       p.line, p.col⟩],
     (takeWord rest).2,
     (c :: (takeWord rest).1).foldl step p)
  else
    (match punctType c with
     | some k => ([Item.tok ⟨k, [c], p.line, p.col⟩], rest, step p c)
     | none => ([Item.tok ⟨.ERROR, msgUnexpected, p.line, p.col⟩], rest, step p c))

/-- Modelled from the spec: the Scanning Engine loop: dispatch cycles
until the buffer is exhausted, then the end marker. The fuel argument
dominates the buffer length at every call from `scanItems`, so the fuel of
zero case is never reached from it. -/
def scanItemsF : Nat → List Char → Pos → List Item
  | 0, _, p => [Item.tok (eofTok p)]
  | _ + 1, [], p => [Item.tok (eofTok p)]
  | fuel + 1, c :: rest, p =>
    (scanStep c rest p).1
      ++ scanItemsF fuel (scanStep c rest p).2.1 (scanStep c rest p).2.2

/-- Modelled from the spec: a whole scan: run the engine from the initial
position over the whole buffer. -/
def scanItems (l : List Char) : List Item :=
  scanItemsF l.length l initPos

/-- Tokens among a list of emissions, in order. -/
def tokensOf (items : List Item) : List Token :=
  items.filterMap fun it =>
    match it with
    | Item.tok t => some t
    | Item.skip _ => none

/-- Modelled from the spec: the token sequence returned to the caller. -/
def scanTokens (l : List Char) : List Token :=
  tokensOf (scanItems l)

/-- Modelled from the spec: the aggregate had-error flag, true exactly
when some ERROR token was produced. -/
def hadError (l : List Char) : Bool :=
  (scanTokens l).any fun t => decide (t.kind = TokenType.ERROR)

/-- Source characters accounted to one emission: the lexeme of a token
that consumed source characters (the end marker excluded) or a discarded
span. -/
def pieceOf : Item → List Char
  | Item.tok t => if t.kind = TokenType.END_OF_FILE then [] else t.lexeme
  | Item.skip s => s

/-- Concatenation, in source order, of the characters accounted to a list
of emissions. -/
def pieces (items : List Item) : List Char :=
  (items.map pieceOf).flatten

/-- No ERROR token occurs among the emissions. -/
def noErrorIn (items : List Item) : Prop :=
  ∀ t, Item.tok t ∈ items → t.kind ≠ TokenType.ERROR

theorem takeWord_append (l : List Char) : (takeWord l).1 ++ (takeWord l).2 = l := by
  induction l with
  | nil => rfl
  | cons c rest ih =>
    by_cases h : isWordChar c
    · simp [takeWord, h, ih]
    · simp [takeWord, h]

theorem takeNum_append (l : List Char) : (takeNum l).1 ++ (takeNum l).2 = l := by
  induction l with
  | nil => rfl
  | cons c rest ih =>
    cases rest with
    | nil =>
      rw [takeNum.eq_3]
      by_cases h1 : isDigitC c
      · simp [h1, takeNum]
      · by_cases h2 : c = '_'
        · subst h2
          decide
        · simp [h1, h2]
    | cons d tail =>
      rw [takeNum.eq_2]
      by_cases h1 : isDigitC c
      · simp [h1, ih]
      · by_cases h2 : c = '_'
        · subst h2
          by_cases h3 : isDigitC d
          · simp [h1, h3, ih]
          · simp [h1, h3]
        · simp [h1, h2]

theorem takeMoneyInt_append (l : List Char) : (takeMoneyInt l).1 ++ (takeMoneyInt l).2 = l := by
  induction l with
  | nil => rfl
  | cons c rest ih =>
    cases rest with
    | nil =>
      rw [takeMoneyInt.eq_3]
      by_cases h1 : isDigitC c
      · simp [h1, takeMoneyInt]
      · by_cases h2 : c = ','
        · subst h2
          decide
        · simp [h1, h2]
    | cons d tail =>
      rw [takeMoneyInt.eq_2]
      by_cases h1 : isDigitC c
      · simp [h1, ih]
      · by_cases h2 : c = ','
        · subst h2
          by_cases h3 : isDigitC d
          · simp [h1, h3, ih]
          · simp [h1, h3]
        · simp [h1, h2]

theorem takeDigits_append (l : List Char) : (takeDigits l).1 ++ (takeDigits l).2 = l := by
  induction l with
  | nil => rfl
  | cons c rest ih =>
    by_cases h : isDigitC c
    · simp [takeDigits, h, ih]
    · simp [takeDigits, h]

theorem takeUpper_append (l : List Char) : (takeUpper l).1 ++ (takeUpper l).2 = l := by
  induction l with
  | nil => rfl
  | cons c rest ih =>
    by_cases h : isUpperC c
    · simp [takeUpper, h, ih]
    · simp [takeUpper, h]

theorem scanNumberRest_append (l : List Char) :
    (scanNumberRest l).1 ++ (scanNumberRest l).2 = l := by
  unfold scanNumberRest
  split
  · rename_i d rest2 heq
    by_cases hd : isDigitC d
    · have h2 := takeNum_append (d :: rest2)
      have h0 := takeNum_append l
      simp only [hd, if_true]
      rw [List.append_assoc, List.cons_append, h2, ← heq]
      exact h0
    · simp [hd, takeNum_append l]
  · exact takeNum_append l

theorem scanMoneyCents_append (l : List Char) :
    (scanMoneyCents l).1 ++ (scanMoneyCents l).2 = l := by
  unfold scanMoneyCents
  split
  · rename_i d rest2 heq
    by_cases hd : isDigitC d
    · have h2 := takeDigits_append (d :: rest2)
      have h0 := takeMoneyInt_append l
      simp only [hd, if_true]
      rw [List.append_assoc, List.cons_append, h2, ← heq]
      exact h0
    · simp [hd, takeMoneyInt_append l]
  · exact takeMoneyInt_append l

theorem scanMoneyRest_append (l : List Char) :
    (scanMoneyRest l).1 ++ (scanMoneyRest l).2 = l := by
  unfold scanMoneyRest
  have h0 := scanMoneyCents_append l
  have h3 := takeUpper_append (scanMoneyCents l).2
  rw [List.append_assoc, h3]
  exact h0

theorem matchDate_append {l : List Char} {r : List Char × List Char}
    (h : matchDate l = some r) : r.1 ++ r.2 = l := by
  unfold matchDate at h
  split at h
  · split at h
    · injection h with h2
      subst h2
      simp
    · exact absurd h (by simp)
  · exact absurd h (by simp)

theorem matchClock_append {l : List Char} {r : List Char × List Char}
    (h : matchClock l = some r) : r.1 ++ r.2 = l := by
  unfold matchClock at h
  split at h
  · split at h
    · split at h
      · split at h
        · injection h with h2
          subst h2
          simp
        · injection h with h2
          subst h2
          simp
      · injection h with h2
        subst h2
        simp
    · exact absurd h (by simp)
  · exact absurd h (by simp)

theorem scanTimeRest_append (l : List Char) :
    (scanTimeRest l).1 ++ (scanTimeRest l).2 = l := by
  unfold scanTimeRest
  split
  · rename_i dr hdate
    split
    · rename_i rest2 hrest
      split
      · rename_i tr hclock
        have h1 := matchDate_append hdate
        have h2 := matchClock_append hclock
        rw [← h1, hrest]
        simp [← h2]
      · exact matchDate_append hdate
    · exact matchDate_append hdate
  · split
    · rename_i tr hclock
      exact matchClock_append hclock
    · simp

theorem scanQuoted_append (l : List Char) :
    ∀ r, scanQuoted l = some r → r.1 ++ r.2 = l := by
  induction l using scanQuoted.induct with
  | case1 =>
    intro r h
    rw [scanQuoted.eq_1] at h
    exact absurd h (by simp)
  | case2 rest ih =>
    intro r h
    rw [scanQuoted.eq_2] at h
    cases hq : scanQuoted rest with
    | none => rw [hq] at h; exact absurd h (by simp)
    | some q =>
      rw [hq] at h
      simp only [Option.map_some'] at h
      cases h
      have h3 := ih q hq
      simp [← h3]
  | case3 rest =>
    intro r h
    rw [scanQuoted.eq_3] at h
    cases h
    simp
  | case4 c rest hn1 hn2 ih =>
    intro r h
    rw [scanQuoted.eq_4 c rest hn1 hn2] at h
    cases hq : scanQuoted rest with
    | none => rw [hq] at h; exact absurd h (by simp)
    | some q =>
      rw [hq] at h
      simp only [Option.map_some'] at h
      cases h
      have h3 := ih q hq
      simp [← h3]

theorem findClose1_append (l : List Char) :
    ∀ r, findClose1 l = some r → r.1 ++ '#' :: r.2 = l := by
  induction l with
  | nil =>
    intro r h
    exact absurd h (by simp [findClose1])
  | cons c rest ih =>
    intro r h
    by_cases hc : c = '#'
    · simp only [findClose1, hc, if_true] at h
      cases h
      simp [hc]
    · simp only [findClose1, hc, if_false] at h
      cases hq : findClose1 rest with
      | none => rw [hq] at h; exact absurd h (by simp)
      | some q =>
        rw [hq] at h
        simp only [Option.map_some'] at h
        cases h
        have h3 := ih q hq
        simp [← h3]

theorem findClose2_append (l : List Char) :
    ∀ r, findClose2 l = some r → r.1 ++ '#' :: '#' :: r.2 = l := by
  induction l using findClose2.induct with
  | case1 =>
    intro r h
    rw [findClose2.eq_1] at h
    exact absurd h (by simp)
  | case2 rest =>
    intro r h
    rw [findClose2.eq_2] at h
    cases h
    simp
  | case3 c rest hn ih =>
    intro r h
    rw [findClose2.eq_3 c rest hn] at h
    cases hq : findClose2 rest with
    | none => rw [hq] at h; exact absurd h (by simp)
    | some q =>
      rw [hq] at h
      simp only [Option.map_some'] at h
      cases h
      have h3 := ih q hq
      simp [← h3]


set_option maxHeartbeats 1000000 in
theorem classifyWord_ne (w : List Char) :
    classifyWord w ≠ TokenType.END_OF_FILE ∧ classifyWord w ≠ TokenType.ERROR := by
  unfold classifyWord
  split_ifs <;> decide

theorem punctType_ne {c : Char} {k : TokenType} (h : punctType c = some k) :
    k ≠ TokenType.END_OF_FILE ∧ k ≠ TokenType.ERROR := by
  unfold punctType at h
  repeat' split at h
  all_goals first
    | (cases h; decide)
    | exact absurd h (by simp)

theorem isDigitC_facts {c : Char} (h : isDigitC c = true) :
    c ≠ '\n' ∧ isWsC c = false ∧ c ≠ '#' := by
  refine ⟨?_, ?_, ?_⟩
  · intro hc
    subst hc
    exact absurd h (by decide)
  · cases hw : isWsC c with
    | false => rfl
    | true =>
      have hw2 := hw
      simp only [isWsC, Bool.or_eq_true, beq_iff_eq] at hw2
      rcases hw2 with (rfl | rfl) | rfl <;> exact absurd h (by decide)
  · intro hc
    subst hc
    exact absurd h (by decide)

theorem isWordStart_facts {c : Char} (h : isWordStart c = true) :
    c ≠ '\n' ∧ isWsC c = false ∧ c ≠ '#' ∧ isDigitC c = false
      ∧ c ≠ '$' ∧ c ≠ '@' ∧ c ≠ '"' := by
  refine ⟨?_, ?_, ?_, ?_, ?_, ?_, ?_⟩
  · intro hc; subst hc; exact absurd h (by decide)
  · cases hw : isWsC c with
    | false => rfl
    | true =>
      have hw2 := hw
      simp only [isWsC, Bool.or_eq_true, beq_iff_eq] at hw2
      rcases hw2 with (rfl | rfl) | rfl <;> exact absurd h (by decide)
  · intro hc; subst hc; exact absurd h (by decide)
  · have h2 : isAlphaC c = true ∨ c = '_' := by
      simpa [isWordStart] using h
    rcases h2 with h2 | rfl
    · unfold isAlphaC at h2
      simp only [Bool.or_eq_true, decide_eq_true_eq] at h2
      unfold isDigitC
      simp only [decide_eq_false_iff_not]
      omega
    · decide
  · intro hc; subst hc; exact absurd h (by decide)
  · intro hc; subst hc; exact absurd h (by decide)
  · intro hc; subst hc; exact absurd h (by decide)

theorem scanStep_newline (rest : List Char) (p : Pos) :
    scanStep '\n' rest p
      = ([Item.tok ⟨TokenType.NEWLINE, [ '\n' ], p.line, p.col⟩], rest, step p '\n') := by
  unfold scanStep
  simp +decide

theorem scanStep_ws {c : Char} (h1 : c ≠ '\n') (h2 : isWsC c = true)
    (rest : List Char) (p : Pos) :
    scanStep c rest p = ([Item.skip [c]], rest, step p c) := by
  unfold scanStep
  simp [h1, h2]

theorem scanStep_hash_nil (p : Pos) :
    scanStep '#' [] p
      = ([Item.tok ⟨TokenType.COMMENT_START, [ '#' ], p.line, p.col⟩,
          Item.skip [],
          Item.tok ⟨TokenType.ERROR, msgUntermComment, p.line, p.col⟩],
         [], ([ '#' ] : List Char).foldl step p) := by
  unfold scanStep
  simp +decide [findClose1]

theorem scanStep_hash2_some {rest1 : List Char} {ir : List Char × List Char}
    (hfc : findClose2 rest1 = some ir) (p : Pos) :
    scanStep '#' ( '#' :: rest1) p
      = ([Item.tok ⟨TokenType.COMMENT_START, [ '#', '#' ], p.line, p.col⟩,
          Item.skip ir.1,
          Item.tok ⟨TokenType.COMMENT_END, [ '#', '#' ],
            (( '#' :: '#' :: ir.1).foldl step p).line,
            (( '#' :: '#' :: ir.1).foldl step p).col⟩],
         ir.2,
         (( '#' :: '#' :: ir.1) ++ [ '#', '#' ]).foldl step p) := by
  unfold scanStep
  simp +decide [hfc]

theorem scanStep_hash2_none {rest1 : List Char} (hfc : findClose2 rest1 = none) (p : Pos) :
    scanStep '#' ( '#' :: rest1) p
      = ([Item.tok ⟨TokenType.COMMENT_START, [ '#', '#' ], p.line, p.col⟩,
          Item.skip rest1,
          Item.tok ⟨TokenType.ERROR, msgUntermComment, p.line, p.col⟩],
         [], ( '#' :: '#' :: rest1).foldl step p) := by
  unfold scanStep
  simp +decide [hfc]

theorem scanStep_hash1_some {r1 : Char} {rest1 : List Char} {ir : List Char × List Char}
    (hr1 : r1 ≠ '#') (hfc : findClose1 (r1 :: rest1) = some ir) (p : Pos) :
    scanStep '#' (r1 :: rest1) p
      = ([Item.tok ⟨TokenType.COMMENT_START, [ '#' ], p.line, p.col⟩,
          Item.skip ir.1,
          Item.tok ⟨TokenType.COMMENT_END, [ '#' ],
            (( '#' :: ir.1).foldl step p).line, (( '#' :: ir.1).foldl step p).col⟩],
         ir.2, (( '#' :: ir.1) ++ [ '#' ]).foldl step p) := by
  unfold scanStep
  simp +decide [hr1, hfc]

theorem scanStep_hash1_none {r1 : Char} {rest1 : List Char}
    (hr1 : r1 ≠ '#') (hfc : findClose1 (r1 :: rest1) = none) (p : Pos) :
    scanStep '#' (r1 :: rest1) p
      = ([Item.tok ⟨TokenType.COMMENT_START, [ '#' ], p.line, p.col⟩,
          Item.skip (r1 :: rest1),
          Item.tok ⟨TokenType.ERROR, msgUntermComment, p.line, p.col⟩],
         [], ( '#' :: r1 :: rest1).foldl step p) := by
  unfold scanStep
  simp +decide [hr1, hfc]

theorem scanStep_digit {c : Char} (h : isDigitC c = true) (rest : List Char) (p : Pos) :
    scanStep c rest p
      = ([Item.tok ⟨TokenType.NUMBER, c :: (scanNumberRest rest).1, p.line, p.col⟩],
         (scanNumberRest rest).2, (c :: (scanNumberRest rest).1).foldl step p) := by
  obtain ⟨f1, f2, f3⟩ := isDigitC_facts h
  unfold scanStep
  simp [f1, f2, f3, h]

theorem scanStep_money (rest : List Char) (p : Pos) :
    scanStep '$' rest p
      = ([Item.tok ⟨TokenType.MONEY, '$' :: (scanMoneyRest rest).1, p.line, p.col⟩],
         (scanMoneyRest rest).2, ( '$' :: (scanMoneyRest rest).1).foldl step p) := by
  unfold scanStep
  simp +decide

theorem scanStep_time (rest : List Char) (p : Pos) :
    scanStep '@' rest p
      = ([Item.tok ⟨TokenType.TIME, '@' :: (scanTimeRest rest).1, p.line, p.col⟩],
         (scanTimeRest rest).2, ( '@' :: (scanTimeRest rest).1).foldl step p) := by
  unfold scanStep
  simp +decide

theorem scanStep_quote_some {rest : List Char} {br : List Char × List Char}
    (hq : scanQuoted rest = some br) (p : Pos) :
    scanStep '"' rest p
      = ([Item.tok ⟨TokenType.TEXT, '"' :: br.1, p.line, p.col⟩], br.2,
         ( '"' :: br.1).foldl step p) := by
  unfold scanStep
  simp +decide [hq]

theorem scanStep_quote_none {rest : List Char} (hq : scanQuoted rest = none) (p : Pos) :
    scanStep '"' rest p
      = ([Item.tok ⟨TokenType.ERROR, msgUntermString, p.line, p.col⟩], [],
         ( '"' :: rest).foldl step p) := by
  unfold scanStep
  simp +decide [hq]

theorem scanStep_word {c : Char} (h : isWordStart c = true) (rest : List Char) (p : Pos) :
    scanStep c rest p
      = ([Item.tok ⟨classifyWord (c :: (takeWord rest).1), c :: (takeWord rest).1,
          p.line, p.col⟩],
         (takeWord rest).2, (c :: (takeWord rest).1).foldl step p) := by
  obtain ⟨f1, f2, f3, f4, f5, f6, f7⟩ := isWordStart_facts h
  unfold scanStep
  simp [f1, f2, f3, f4, f5, f6, f7, h]

theorem scanStep_punct {c : Char} {k : TokenType}
    (h1 : c ≠ '\n') (h2 : isWsC c = false) (h3 : c ≠ '#') (h4 : isDigitC c = false)
    (h5 : c ≠ '$') (h6 : c ≠ '@') (h7 : c ≠ '"') (h8 : isWordStart c = false)
    (hp : punctType c = some k) (rest : List Char) (p : Pos) :
    scanStep c rest p = ([Item.tok ⟨k, [c], p.line, p.col⟩], rest, step p c) := by
  unfold scanStep
  simp [h1, h2, h3, h4, h5, h6, h7, h8, hp]

theorem scanStep_other {c : Char}
    (h1 : c ≠ '\n') (h2 : isWsC c = false) (h3 : c ≠ '#') (h4 : isDigitC c = false)
    (h5 : c ≠ '$') (h6 : c ≠ '@') (h7 : c ≠ '"') (h8 : isWordStart c = false)
    (hp : punctType c = none) (rest : List Char) (p : Pos) :
    scanStep c rest p
      = ([Item.tok ⟨TokenType.ERROR, msgUnexpected, p.line, p.col⟩], rest, step p c) := by
  unfold scanStep
  simp [h1, h2, h3, h4, h5, h6, h7, h8, hp]

theorem scanStep_sound (c : Char) (rest : List Char) (p : Pos) :
    ∃ cs : List Char,
      cs ≠ []
      ∧ cs ++ (scanStep c rest p).2.1 = c :: rest
      ∧ (scanStep c rest p).2.2 = cs.foldl step p
      ∧ (∀ t, Item.tok t ∈ (scanStep c rest p).1 → t.kind ≠ TokenType.END_OF_FILE)
      ∧ (noErrorIn (scanStep c rest p).1 → pieces (scanStep c rest p).1 = cs) := by
  by_cases h1 : c = '\n'
  · subst h1
    rw [scanStep_newline]
    refine ⟨[ '\n' ], by simp, by simp, rfl, ?_, ?_⟩
    · intro t ht
      simp at ht
      simp [ht]
    · intro _
      simp [pieces, pieceOf]
  · by_cases h2 : isWsC c
    · rw [scanStep_ws h1 h2]
      refine ⟨[c], by simp, by simp, rfl, ?_, ?_⟩
      · intro t ht
        simp at ht
      · intro _
        simp [pieces, pieceOf]
    · by_cases h3 : c = '#'
      · subst h3
        cases rest with
        | nil =>
          rw [scanStep_hash_nil]
          refine ⟨[ '#' ], by simp, by simp, rfl, ?_, ?_⟩
          · intro t ht
            simp at ht
            rcases ht with rfl | rfl <;> simp
          · intro hne
            exact absurd rfl
              (hne ⟨TokenType.ERROR, msgUntermComment, p.line, p.col⟩ (by simp))
        | cons r1 rest1 =>
          by_cases hr1 : r1 = '#'
          · subst hr1
            cases hfc : findClose2 rest1 with
            | some ir =>
              rw [scanStep_hash2_some hfc]
              refine ⟨( '#' :: '#' :: ir.1) ++ [ '#', '#' ], by simp, ?_, rfl, ?_, ?_⟩
              · rw [← findClose2_append rest1 ir hfc]
                simp
              · intro t ht
                simp at ht
                rcases ht with rfl | rfl <;> simp
              · intro _
                simp [pieces, pieceOf]
            | none =>
              rw [scanStep_hash2_none hfc]
              refine ⟨ '#' :: '#' :: rest1, by simp, by simp, rfl, ?_, ?_⟩
              · intro t ht
                simp at ht
                rcases ht with rfl | rfl <;> simp
              · intro hne
                exact absurd rfl
                  (hne ⟨TokenType.ERROR, msgUntermComment, p.line, p.col⟩ (by simp))
          · cases hfc : findClose1 (r1 :: rest1) with
            | some ir =>
              rw [scanStep_hash1_some hr1 hfc]
              refine ⟨( '#' :: ir.1) ++ [ '#' ], by simp, ?_, rfl, ?_, ?_⟩
              · rw [← findClose1_append (r1 :: rest1) ir hfc]
                simp
              · intro t ht
                simp at ht
                rcases ht with rfl | rfl <;> simp
              · intro _
                simp [pieces, pieceOf]
            | none =>
              rw [scanStep_hash1_none hr1 hfc]
              refine ⟨ '#' :: r1 :: rest1, by simp, by simp, rfl, ?_, ?_⟩
              · intro t ht
                simp at ht
                rcases ht with rfl | rfl <;> simp
              · intro hne
                exact absurd rfl
                  (hne ⟨TokenType.ERROR, msgUntermComment, p.line, p.col⟩ (by simp))
      · by_cases h4 : isDigitC c
        · rw [scanStep_digit h4]
          refine ⟨c :: (scanNumberRest rest).1, by simp, ?_, rfl, ?_, ?_⟩
          · simp [scanNumberRest_append rest]
          · intro t ht
            simp at ht
            simp [ht]
          · intro _
            simp [pieces, pieceOf]
        · by_cases h5 : c = '$'
          · subst h5
            rw [scanStep_money]
            refine ⟨ '$' :: (scanMoneyRest rest).1, by simp, ?_, rfl, ?_, ?_⟩
            · simp [scanMoneyRest_append rest]
            · intro t ht
              simp at ht
              simp [ht]
            · intro _
              simp [pieces, pieceOf]
          · by_cases h6 : c = '@'
            · subst h6
              rw [scanStep_time]
              refine ⟨ '@' :: (scanTimeRest rest).1, by simp, ?_, rfl, ?_, ?_⟩
              · simp [scanTimeRest_append rest]
              · intro t ht
                simp at ht
                simp [ht]
              · intro _
                simp [pieces, pieceOf]
            · by_cases h7 : c = '"'
              · subst h7
                cases hq : scanQuoted rest with
                | some br =>
                  rw [scanStep_quote_some hq]
                  refine ⟨ '"' :: br.1, by simp, ?_, rfl, ?_, ?_⟩
                  · simp [scanQuoted_append rest br hq]
                  · intro t ht
                    simp at ht
                    simp [ht]
                  · intro _
                    simp [pieces, pieceOf]
                | none =>
                  rw [scanStep_quote_none hq]
                  refine ⟨ '"' :: rest, by simp, by simp, rfl, ?_, ?_⟩
                  · intro t ht
                    simp at ht
                    simp [ht]
                  · intro hne
                    exact absurd rfl
                      (hne ⟨TokenType.ERROR, msgUntermString, p.line, p.col⟩ (by simp))
              · by_cases h8 : isWordStart c
                · rw [scanStep_word h8]
                  refine ⟨c :: (takeWord rest).1, by simp, ?_, rfl, ?_, ?_⟩
                  · simp [takeWord_append rest]
                  · intro t ht
                    simp at ht
                    simp [ht, (classifyWord_ne (c :: (takeWord rest).1)).1]
                  · intro _
                    simp [pieces, pieceOf, (classifyWord_ne (c :: (takeWord rest).1)).1]
                · have h2f : isWsC c = false := by simpa using h2
                  have h4f : isDigitC c = false := by simpa using h4
                  have h8f : isWordStart c = false := by simpa using h8
                  cases hp : punctType c with
                  | some k =>
                    rw [scanStep_punct h1 h2f h3 h4f h5 h6 h7 h8f hp]
                    refine ⟨[c], by simp, by simp, rfl, ?_, ?_⟩
                    · intro t ht
                      simp at ht
                      simp [ht, (punctType_ne hp).1]
                    · intro _
                      simp [pieces, pieceOf, (punctType_ne hp).1]
                  | none =>
                    rw [scanStep_other h1 h2f h3 h4f h5 h6 h7 h8f hp]
                    refine ⟨[c], by simp, by simp, rfl, ?_, ?_⟩
                    · intro t ht
                      simp at ht
                      simp [ht]
                    · intro hne
                      exact absurd rfl
                        (hne ⟨TokenType.ERROR, msgUnexpected, p.line, p.col⟩ (by simp))

theorem scanItemsF_cons (fuel : Nat) (c : Char) (rest : List Char) (p : Pos) :
    scanItemsF (fuel + 1) (c :: rest) p
      = (scanStep c rest p).1
          ++ scanItemsF fuel (scanStep c rest p).2.1 (scanStep c rest p).2.2 := rfl

theorem scanItemsF_nil (fuel : Nat) (p : Pos) :
    scanItemsF fuel [] p = [Item.tok (eofTok p)] := by
  cases fuel <;> rfl

theorem pieces_append (a b : List Item) : pieces (a ++ b) = pieces a ++ pieces b := by
  simp [pieces]

theorem scanItemsF_eof : ∀ fuel l p, l.length ≤ fuel →
    ∃ body, scanItemsF fuel l p = body ++ [Item.tok (eofTok (l.foldl step p))]
      ∧ ∀ t, Item.tok t ∈ body → t.kind ≠ TokenType.END_OF_FILE := by
  intro fuel
  induction fuel with
  | zero =>
    intro l p hlen
    have hl : l = [] := List.length_eq_zero.mp (Nat.le_zero.mp hlen)
    subst hl
    exact ⟨[], rfl, by simp⟩
  | succ fuel ih =>
    intro l p hlen
    cases l with
    | nil => exact ⟨[], rfl, by simp⟩
    | cons c rest =>
      obtain ⟨cs, hne, hsplit, hpos, heof, _⟩ := scanStep_sound c rest p
      have hlen2 : (scanStep c rest p).2.1.length ≤ fuel := by
        have hls := congrArg List.length hsplit
        simp only [List.length_append, List.length_cons] at hls hlen
        cases cs with
        | nil => exact absurd rfl hne
        | cons a as =>
          simp only [List.length_cons] at hls
          omega
      obtain ⟨body, hb, hbfree⟩ :=
        ih (scanStep c rest p).2.1 (scanStep c rest p).2.2 hlen2
      refine ⟨(scanStep c rest p).1 ++ body, ?_, ?_⟩
      · rw [scanItemsF_cons, hb, hpos, ← List.foldl_append, hsplit, List.append_assoc]
      · intro t ht
        rcases List.mem_append.mp ht with ht | ht
        · exact heof t ht
        · exact hbfree t ht

theorem scanItemsF_recon : ∀ fuel l p, l.length ≤ fuel →
    noErrorIn (scanItemsF fuel l p) → pieces (scanItemsF fuel l p) = l := by
  intro fuel
  induction fuel with
  | zero =>
    intro l p hlen _
    have hl : l = [] := List.length_eq_zero.mp (Nat.le_zero.mp hlen)
    subst hl
    simp [scanItemsF, pieces, pieceOf, eofTok]
  | succ fuel ih =>
    intro l p hlen hnerr
    cases l with
    | nil => simp [scanItemsF, pieces, pieceOf, eofTok]
    | cons c rest =>
      rw [scanItemsF_cons] at hnerr ⊢
      obtain ⟨cs, hne, hsplit, hpos, _, hpieces⟩ := scanStep_sound c rest p
      have hlen2 : (scanStep c rest p).2.1.length ≤ fuel := by
        have hls := congrArg List.length hsplit
        simp only [List.length_append, List.length_cons] at hls hlen
        cases cs with
        | nil => exact absurd rfl hne
        | cons a as =>
          simp only [List.length_cons] at hls
          omega
      have hn1 : noErrorIn (scanStep c rest p).1 :=
        fun t ht => hnerr t (List.mem_append_left _ ht)
      have hn2 : noErrorIn (scanItemsF fuel (scanStep c rest p).2.1 (scanStep c rest p).2.2) :=
        fun t ht => hnerr t (List.mem_append_right _ ht)
      rw [pieces_append, hpieces hn1,
        ih (scanStep c rest p).2.1 (scanStep c rest p).2.2 hlen2 hn2]
      exact hsplit

theorem mem_tokensOf {t : Token} {items : List Item} :
    t ∈ tokensOf items ↔ Item.tok t ∈ items := by
  constructor
  · intro h
    obtain ⟨it, hit, hf⟩ := List.mem_filterMap.mp h
    cases it with
    | tok t2 =>
      simp only [Option.some_inj] at hf
      subst hf
      exact hit
    | skip s => simp at hf
  · intro h
    exact List.mem_filterMap.mpr ⟨Item.tok t, h, rfl⟩

theorem takeWord_all {w : List Char} (h : ∀ x ∈ w, isWordChar x = true) :
    takeWord w = (w, []) := by
  induction w with
  | nil => rfl
  | cons c rest ih =>
    have hc := h c (by simp)
    have hr : ∀ x ∈ rest, isWordChar x = true := fun x hx => h x (by simp [hx])
    simp [takeWord, hc, ih hr]

theorem isWordChar_ne_newline {c : Char} (h : isWordChar c = true) : c ≠ '\n' := by
  intro hc
  subst hc
  exact absurd h (by decide)

theorem foldl_step_no_newline : ∀ (l : List Char) (p : Pos), (∀ x ∈ l, x ≠ '\n') →
    l.foldl step p = ⟨p.line, p.col + l.length⟩ := by
  intro l
  induction l with
  | nil =>
    intro p _
    cases p
    simp
  | cons c rest ih =>
    intro p h
    have hc : c ≠ '\n' := h c (by simp)
    have hr : ∀ x ∈ rest, x ≠ '\n' := fun x hx => h x (by simp [hx])
    have h1 : step p c = ⟨p.line, p.col + 1⟩ := by simp [step, hc]
    simp only [List.foldl_cons, h1, ih ⟨p.line, p.col + 1⟩ hr, List.length_cons]
    congr 1
    omega

/-- C2: every scan ends with exactly one END_OF_FILE token: it is the last
token, its lexeme is empty, its position is the one reached after folding
the position tracker over the whole consumed buffer, and no other token of
the sequence is an end marker; scanning the empty buffer yields exactly
the end marker at line 1, column 1, with the had-error flag false. -/
theorem c2_end_marker :
    (∀ l : List Char,
      ∃ body, scanTokens l = body ++ [eofTok (l.foldl step initPos)]
        ∧ (eofTok (l.foldl step initPos)).lexeme = []
        ∧ ∀ t ∈ body, t.kind ≠ TokenType.END_OF_FILE)
    ∧ scanTokens [] = [⟨TokenType.END_OF_FILE, [], 1, 1⟩]
    ∧ hadError [] = false := by
  refine ⟨?_, by decide, by decide⟩
  intro l
  obtain ⟨body, hb, hfree⟩ := scanItemsF_eof l.length l initPos le_rfl
  refine ⟨tokensOf body, ?_, rfl, ?_⟩
  · rw [scanTokens, scanItems, hb]
    simp [tokensOf]
  · intro t ht
    exact hfree t (mem_tokensOf.mp ht)

/-- C3: the Position Tracker starts at line 1, column 1 (and a scan starts
there); consuming a newline increments the line and resets the column to
1; consuming any other character, tab and carriage return included,
increments the column by exactly 1 and keeps the line. -/
theorem c3_position_tracker :
    initPos = ⟨1, 1⟩
    ∧ (∀ l : List Char, scanItems l = scanItemsF l.length l initPos)
    ∧ (∀ p : Pos, step p '\n' = ⟨p.line + 1, 1⟩)
    ∧ (∀ (p : Pos) (c : Char), c ≠ '\n' → step p c = ⟨p.line, p.col + 1⟩) := by
  refine ⟨rfl, fun l => rfl, fun p => by simp [step], fun p c hc => by simp [step, hc]⟩

/-- Witness for C3 at concrete positions and characters: tab and carriage
return advance the column by one, a newline advances the line. -/
theorem c3_witness :
    step ⟨3, 5⟩ '\t' = ⟨3, 6⟩ ∧ step ⟨3, 5⟩ '\r' = ⟨3, 6⟩ ∧ step ⟨3, 5⟩ '\n' = ⟨4, 1⟩ :=
  ⟨c3_position_tracker.2.2.2 ⟨3, 5⟩ '\t' (by decide),
   c3_position_tracker.2.2.2 ⟨3, 5⟩ '\r' (by decide),
   c3_position_tracker.2.2.1 ⟨3, 5⟩⟩

/-- C1 counterexample: on the spec's own unterminated-string scenario the
ERROR token carries the message "Unterminated string" in place of the
consumed characters, so concatenating lexemes and discarded spans yields
the message, not the original input. -/
theorem c1_counterexample :
    pieces (scanItems ("\"unterminated".data)) ≠ ("\"unterminated".data) := by
  decide

/-- C1 (amended to scans that produce no ERROR token): when the had-error
flag is false, concatenating the lexemes of all tokens that consumed
source characters (the end marker excluded) together with the discarded
whitespace and comment-interior spans, in source order, reconstructs the
input exactly. -/
theorem c1_reconstruction (l : List Char) (h : hadError l = false) :
    pieces (scanItems l) = l := by
  apply scanItemsF_recon l.length l initPos le_rfl
  intro t ht hk
  have hmem : t ∈ scanTokens l := mem_tokensOf.mpr ht
  have hany : hadError l = true := by
    unfold hadError
    exact List.any_eq_true.mpr ⟨t, hmem, by simp [hk]⟩
  rw [h] at hany
  exact Bool.false_ne_true hany

/-- Witness for C1 on an error-free input mixing keywords, bare words,
numbers, whitespace and a comment. -/
theorem c1_witness :
    hadError ("if x > 10 then # c #".data) = false
    ∧ pieces (scanItems ("if x > 10 then # c #".data)) = ("if x > 10 then # c #".data) :=
  ⟨by decide, c1_reconstruction ("if x > 10 then # c #".data) (by decide)⟩

/-- C4: when a quoted text literal opened at any position exhausts the
buffer without an unescaped closing quote, the rest of the scan is exactly
an ERROR token with message "Unterminated string" at the opening quote
followed by the end marker, and the token sequence reports an error. -/
theorem c4_unterminated_string (tl : List Char) (p : Pos) (fuel : Nat)
    (hfuel : tl.length < fuel) (h : scanQuoted tl = none) :
    scanItemsF fuel ('"' :: tl) p
      = [Item.tok ⟨TokenType.ERROR, msgUntermString, p.line, p.col⟩,
         Item.tok (eofTok (( '"' :: tl).foldl step p))]
    ∧ tokensOf (scanItemsF fuel ('"' :: tl) p)
      = [⟨TokenType.ERROR, msgUntermString, p.line, p.col⟩,
         eofTok (( '"' :: tl).foldl step p)]
    ∧ (tokensOf (scanItemsF fuel ('"' :: tl) p)).any
        (fun t => decide (t.kind = TokenType.ERROR)) = true := by
  obtain ⟨f, rfl⟩ : ∃ f, fuel = f + 1 := ⟨fuel - 1, by omega⟩
  rw [scanItemsF_cons, scanStep_quote_none h, scanItemsF_nil]
  refine ⟨by simp, ?_, ?_⟩ <;> simp [tokensOf]

/-- Witness for C4 at the spec scenario: the whole-buffer scan of
a double quote followed by the word unterminated. -/
theorem c4_witness :
    ("unterminated".data).length < 13
    ∧ scanQuoted ("unterminated".data) = none
    ∧ tokensOf (scanItemsF 13 ('"' :: ("unterminated".data)) initPos)
        = [⟨TokenType.ERROR, msgUntermString, 1, 1⟩,
           ⟨TokenType.END_OF_FILE, [], 1, 14⟩] := by
  have h := c4_unterminated_string ("unterminated".data) initPos 13 (by decide) (by decide)
  refine ⟨by decide, by decide, ?_⟩
  rw [h.2.1]
  decide

/-- C6: when a comment region opened by one or two hash characters
exhausts the buffer without a matching same-length closing run, the rest
of the scan is exactly the COMMENT_START token for the opening delimiter,
an Unterminated comment ERROR token in place of COMMENT_END, and the end
marker. -/
theorem c6_unterminated_comment :
    (∀ (rest1 : List Char) (p : Pos) (fuel : Nat), rest1.length + 1 ≤ fuel →
      findClose2 rest1 = none →
      tokensOf (scanItemsF fuel ('#' :: '#' :: rest1) p)
        = [⟨TokenType.COMMENT_START, [ '#', '#' ], p.line, p.col⟩,
           ⟨TokenType.ERROR, msgUntermComment, p.line, p.col⟩,
           eofTok (( '#' :: '#' :: rest1).foldl step p)])
    ∧ (∀ (r1 : Char) (rest1 : List Char) (p : Pos) (fuel : Nat),
        1 ≤ fuel → r1 ≠ '#' → findClose1 (r1 :: rest1) = none →
        tokensOf (scanItemsF fuel ('#' :: r1 :: rest1) p)
          = [⟨TokenType.COMMENT_START, [ '#' ], p.line, p.col⟩,
             ⟨TokenType.ERROR, msgUntermComment, p.line, p.col⟩,
             eofTok (( '#' :: r1 :: rest1).foldl step p)])
    ∧ (∀ (p : Pos) (fuel : Nat), 1 ≤ fuel →
        tokensOf (scanItemsF fuel [ '#' ] p)
          = [⟨TokenType.COMMENT_START, [ '#' ], p.line, p.col⟩,
             ⟨TokenType.ERROR, msgUntermComment, p.line, p.col⟩,
             eofTok (([ '#' ] : List Char).foldl step p)]) := by
  refine ⟨?_, ?_, ?_⟩
  · intro rest1 p fuel hf hfc
    obtain ⟨f, rfl⟩ : ∃ f, fuel = f + 1 := ⟨fuel - 1, by omega⟩
    rw [scanItemsF_cons, scanStep_hash2_none hfc, scanItemsF_nil]
    simp [tokensOf]
  · intro r1 rest1 p fuel hf hr1 hfc
    obtain ⟨f, rfl⟩ : ∃ f, fuel = f + 1 := ⟨fuel - 1, by omega⟩
    rw [scanItemsF_cons, scanStep_hash1_none hr1 hfc, scanItemsF_nil]
    simp [tokensOf]
  · intro p fuel hf
    obtain ⟨f, rfl⟩ : ∃ f, fuel = f + 1 := ⟨fuel - 1, by omega⟩
    rw [scanItemsF_cons, scanStep_hash_nil, scanItemsF_nil]
    simp [tokensOf]

/-- Witness for C6 at the test scenario of three hashes followed by the
word Comment: a doubled opener whose closing run never appears. -/
theorem c6_witness :
    findClose2 ("# Comment".data) = none
    ∧ tokensOf (scanItemsF 11 ('#' :: '#' :: ("# Comment".data)) initPos)
        = [⟨TokenType.COMMENT_START, [ '#', '#' ], 1, 1⟩,
           ⟨TokenType.ERROR, msgUntermComment, 1, 1⟩,
           ⟨TokenType.END_OF_FILE, [], 1, 12⟩] := by
  have h := c6_unterminated_comment.1 ("# Comment".data) initPos 11 (by decide) (by decide)
  refine ⟨by decide, ?_⟩
  rw [h]
  decide

/-- C5: keyword classification is an exact, case-sensitive, whole-word
match: the nine reserved words map to their reserved kinds, true and false
to BOOLEAN, unknown to UNKNOWN, every other word to TEXT; and scanning a
buffer holding one maximal bare word yields a single token carrying the
whole word as lexeme with that classification, never a keyword prefix
followed by a remainder. -/
theorem c5_keywords :
    (classifyWord ("if".data) = TokenType.IF
      ∧ classifyWord ("then".data) = TokenType.THEN
      ∧ classifyWord ("else".data) = TokenType.ELSE
      ∧ classifyWord ("while".data) = TokenType.WHILE
      ∧ classifyWord ("do".data) = TokenType.DO
      ∧ classifyWord ("for".data) = TokenType.FOR
      ∧ classifyWord ("in".data) = TokenType.IN
      ∧ classifyWord ("function".data) = TokenType.FUNCTION
      ∧ classifyWord ("return".data) = TokenType.RETURN
      ∧ classifyWord ("true".data) = TokenType.BOOLEAN
      ∧ classifyWord ("false".data) = TokenType.BOOLEAN
      ∧ classifyWord ("unknown".data) = TokenType.UNKNOWN)
    ∧ (∀ w : List Char,
        w ∉ [("if".data), ("then".data), ("else".data), ("while".data), ("do".data),
             ("for".data), ("in".data), ("function".data), ("return".data),
             ("true".data), ("false".data), ("unknown".data)] →
        classifyWord w = TokenType.TEXT)
    ∧ (∀ (c : Char) (w : List Char) (p : Pos) (fuel : Nat),
        w.length + 1 ≤ fuel → isWordStart c = true → (∀ x ∈ w, isWordChar x = true) →
        scanItemsF fuel (c :: w) p
          = [Item.tok ⟨classifyWord (c :: w), c :: w, p.line, p.col⟩,
             Item.tok (eofTok ⟨p.line, p.col + (w.length + 1)⟩)]) := by
  refine ⟨by decide, ?_, ?_⟩
  · intro w hw
    simp only [List.mem_cons, List.not_mem_nil, or_false] at hw
    push_neg at hw
    unfold classifyWord
    obtain ⟨n1, n2, n3, n4, n5, n6, n7, n8, n9, n10, n11, n12⟩ := hw
    simp [n1, n2, n3, n4, n5, n6, n7, n8, n9, n10, n11, n12]
  · intro c w p fuel hf hws hwc
    obtain ⟨f, rfl⟩ : ∃ f, fuel = f + 1 := ⟨fuel - 1, by omega⟩
    rw [scanItemsF_cons, scanStep_word hws, takeWord_all hwc]
    have hnl : ∀ x ∈ c :: w, x ≠ '\n' := by
      intro x hx
      rcases List.mem_cons.mp hx with rfl | hx2
      · exact (isWordStart_facts hws).1
      · exact isWordChar_ne_newline (hwc x hx2)
    rw [scanItemsF_nil]
    simp [foldl_step_no_newline (c :: w) p hnl, eofTok]

/-- Witness for C5 at the word iffy: a single TEXT token carrying the
whole word, not an IF keyword followed by a remainder. -/
theorem c5_witness :
    isWordStart 'i' = true
    ∧ scanItemsF 4 ('i' :: ("ffy".data)) initPos
        = [Item.tok ⟨TokenType.TEXT, 'i' :: ("ffy".data), 1, 1⟩,
           Item.tok (eofTok ⟨1, 5⟩)] := by
  have h := c5_keywords.2.2 'i' ("ffy".data) initPos 4 (by decide) (by decide) (by decide)
  refine ⟨by decide, ?_⟩
  rw [h]
  decide

/-- Modelled from the spec: the Scanning Engine state machine of spec
section 4.2 rendered as a relation from the remaining buffer and current
position to the emissions of the rest of the scan; each constructor is one
dispatch case, carrying the guards of the dispatch chain as hypotheses, so
that two runs of the machine over the same buffer can be compared. -/
inductive ScanRel : List Char → Pos → List Item → Prop where
  | nil (p : Pos) : ScanRel [] p [Item.tok (eofTok p)]
  | newline (rest : List Char) (p : Pos) (its : List Item)
      (ih : ScanRel rest (step p '\n') its) :
      ScanRel ('\n' :: rest) p
        (Item.tok ⟨TokenType.NEWLINE, [ '\n' ], p.line, p.col⟩ :: its)
  | ws (c : Char) (rest : List Char) (p : Pos) (its : List Item)
      (h1 : c ≠ '\n') (h2 : isWsC c = true)
      (ih : ScanRel rest (step p c) its) :
      ScanRel (c :: rest) p (Item.skip [c] :: its)
  | hashNil (p : Pos) (its : List Item)
      (ih : ScanRel [] (([ '#' ] : List Char).foldl step p) its) :
      ScanRel [ '#' ] p
        (Item.tok ⟨TokenType.COMMENT_START, [ '#' ], p.line, p.col⟩
          :: Item.skip []
          :: Item.tok ⟨TokenType.ERROR, msgUntermComment, p.line, p.col⟩ :: its)
  | hash2some (rest1 : List Char) (ir : List Char × List Char) (p : Pos) (its : List Item)
      (hfc : findClose2 rest1 = some ir)
      (ih : ScanRel ir.2 ((( '#' :: '#' :: ir.1) ++ [ '#', '#' ]).foldl step p) its) :
      ScanRel ('#' :: '#' :: rest1) p
        (Item.tok ⟨TokenType.COMMENT_START, [ '#', '#' ], p.line, p.col⟩
          :: Item.skip ir.1
          :: Item.tok ⟨TokenType.COMMENT_END, [ '#', '#' ],
               (( '#' :: '#' :: ir.1).foldl step p).line,
               (( '#' :: '#' :: ir.1).foldl step p).col⟩ :: its)
  | hash2none (rest1 : List Char) (p : Pos) (its : List Item)
      (hfc : findClose2 rest1 = none)
      (ih : ScanRel [] (( '#' :: '#' :: rest1).foldl step p) its) :
      ScanRel ('#' :: '#' :: rest1) p
        (Item.tok ⟨TokenType.COMMENT_START, [ '#', '#' ], p.line, p.col⟩
          :: Item.skip rest1
          :: Item.tok ⟨TokenType.ERROR, msgUntermComment, p.line, p.col⟩ :: its)
  | hash1some (r1 : Char) (rest1 : List Char) (ir : List Char × List Char) (p : Pos)
      (its : List Item) (hr1 : r1 ≠ '#') (hfc : findClose1 (r1 :: rest1) = some ir)
      (ih : ScanRel ir.2 ((( '#' :: ir.1) ++ [ '#' ]).foldl step p) its) :
      ScanRel ('#' :: r1 :: rest1) p
        (Item.tok ⟨TokenType.COMMENT_START, [ '#' ], p.line, p.col⟩
          :: Item.skip ir.1
          :: Item.tok ⟨TokenType.COMMENT_END, [ '#' ],
               (( '#' :: ir.1).foldl step p).line,
               (( '#' :: ir.1).foldl step p).col⟩ :: its)
  | hash1none (r1 : Char) (rest1 : List Char) (p : Pos) (its : List Item)
      (hr1 : r1 ≠ '#') (hfc : findClose1 (r1 :: rest1) = none)
      (ih : ScanRel [] (( '#' :: r1 :: rest1).foldl step p) its) :
      ScanRel ('#' :: r1 :: rest1) p
        (Item.tok ⟨TokenType.COMMENT_START, [ '#' ], p.line, p.col⟩
          :: Item.skip (r1 :: rest1)
          :: Item.tok ⟨TokenType.ERROR, msgUntermComment, p.line, p.col⟩ :: its)
  | digit (c : Char) (rest : List Char) (p : Pos) (its : List Item)
      (h1 : c ≠ '\n') (h2 : isWsC c = false) (h3 : c ≠ '#') (h4 : isDigitC c = true)
      (ih : ScanRel (scanNumberRest rest).2
              ((c :: (scanNumberRest rest).1).foldl step p) its) :
      ScanRel (c :: rest) p
        (Item.tok ⟨TokenType.NUMBER, c :: (scanNumberRest rest).1, p.line, p.col⟩ :: its)
  | money (rest : List Char) (p : Pos) (its : List Item)
      (ih : ScanRel (scanMoneyRest rest).2
              (( '$' :: (scanMoneyRest rest).1).foldl step p) its) :
      ScanRel ('$' :: rest) p
        (Item.tok ⟨TokenType.MONEY, '$' :: (scanMoneyRest rest).1, p.line, p.col⟩ :: its)
  | time (rest : List Char) (p : Pos) (its : List Item)
      (ih : ScanRel (scanTimeRest rest).2
              (( '@' :: (scanTimeRest rest).1).foldl step p) its) :
      ScanRel ('@' :: rest) p
        (Item.tok ⟨TokenType.TIME, '@' :: (scanTimeRest rest).1, p.line, p.col⟩ :: its)
  | quoteSome (rest : List Char) (br : List Char × List Char) (p : Pos) (its : List Item)
      (hq : scanQuoted rest = some br)
      (ih : ScanRel br.2 (( '"' :: br.1).foldl step p) its) :
      ScanRel ('"' :: rest) p
        (Item.tok ⟨TokenType.TEXT, '"' :: br.1, p.line, p.col⟩ :: its)
  | quoteNone (rest : List Char) (p : Pos) (its : List Item)
      (hq : scanQuoted rest = none)
      (ih : ScanRel [] (( '"' :: rest).foldl step p) its) :
      ScanRel ('"' :: rest) p
        (Item.tok ⟨TokenType.ERROR, msgUntermString, p.line, p.col⟩ :: its)
  | word (c : Char) (rest : List Char) (p : Pos) (its : List Item)
      (h1 : c ≠ '\n') (h2 : isWsC c = false) (h3 : c ≠ '#') (h4 : isDigitC c = false)
      (h5 : c ≠ '$') (h6 : c ≠ '@') (h7 : c ≠ '"') (h8 : isWordStart c = true)
      (ih : ScanRel (takeWord rest).2 ((c :: (takeWord rest).1).foldl step p) its) :
      ScanRel (c :: rest) p
        (Item.tok ⟨classifyWord (c :: (takeWord rest).1), c :: (takeWord rest).1,
           p.line, p.col⟩ :: its)
  | punct (c : Char) (rest : List Char) (p : Pos) (its : List Item) (k : TokenType)
      (h1 : c ≠ '\n') (h2 : isWsC c = false) (h3 : c ≠ '#') (h4 : isDigitC c = false)
      (h5 : c ≠ '$') (h6 : c ≠ '@') (h7 : c ≠ '"') (h8 : isWordStart c = false)
      (hp : punctType c = some k)
      (ih : ScanRel rest (step p c) its) :
      ScanRel (c :: rest) p (Item.tok ⟨k, [c], p.line, p.col⟩ :: its)
  | other (c : Char) (rest : List Char) (p : Pos) (its : List Item)
      (h1 : c ≠ '\n') (h2 : isWsC c = false) (h3 : c ≠ '#') (h4 : isDigitC c = false)
      (h5 : c ≠ '$') (h6 : c ≠ '@') (h7 : c ≠ '"') (h8 : isWordStart c = false)
      (hp : punctType c = none)
      (ih : ScanRel rest (step p c) its) :
      ScanRel (c :: rest) p
        (Item.tok ⟨TokenType.ERROR, msgUnexpected, p.line, p.col⟩ :: its)

theorem scanRel_scanItemsF : ∀ fuel l p, l.length ≤ fuel →
    ScanRel l p (scanItemsF fuel l p) := by
  intro fuel
  induction fuel with
  | zero =>
    intro l p hlen
    have hl : l = [] := List.length_eq_zero.mp (Nat.le_zero.mp hlen)
    subst hl
    rw [scanItemsF_nil]
    exact ScanRel.nil p
  | succ f ih =>
    intro l p hlen
    cases l with
    | nil =>
      rw [scanItemsF_nil]
      exact ScanRel.nil p
    | cons c rest =>
      have hrest : rest.length ≤ f := by
        simp only [List.length_cons] at hlen
        omega
      rw [scanItemsF_cons]
      by_cases h1 : c = '\n'
      · subst h1
        rw [scanStep_newline]
        simp only [List.singleton_append]
        exact ScanRel.newline rest p _ (ih rest (step p '\n') hrest)
      · by_cases h2 : isWsC c
        · rw [scanStep_ws h1 h2]
          simp only [List.singleton_append]
          exact ScanRel.ws c rest p _ h1 h2 (ih rest (step p c) hrest)
        · by_cases h3 : c = '#'
          · subst h3
            cases rest with
            | nil =>
              rw [scanStep_hash_nil]
              simp only [List.cons_append, List.nil_append]
              exact ScanRel.hashNil p _ (ih [] _ (by simp))
            | cons r1 rest1 =>
              have hrest1 : rest1.length + 1 ≤ f := by
                simpa using hrest
              by_cases hr1 : r1 = '#'
              · subst hr1
                cases hfc : findClose2 rest1 with
                | some ir =>
                  rw [scanStep_hash2_some hfc]
                  simp only [List.cons_append, List.nil_append]
                  refine ScanRel.hash2some rest1 ir p _ hfc (ih ir.2 _ ?_)
                  have hsp := congrArg List.length (findClose2_append rest1 ir hfc)
                  simp only [List.length_append, List.length_cons] at hsp
                  omega
                | none =>
                  rw [scanStep_hash2_none hfc]
                  simp only [List.cons_append, List.nil_append]
                  exact ScanRel.hash2none rest1 p _ hfc (ih [] _ (by simp))
              · cases hfc : findClose1 (r1 :: rest1) with
                | some ir =>
                  rw [scanStep_hash1_some hr1 hfc]
                  simp only [List.cons_append, List.nil_append]
                  refine ScanRel.hash1some r1 rest1 ir p _ hr1 hfc (ih ir.2 _ ?_)
                  have hsp := congrArg List.length (findClose1_append (r1 :: rest1) ir hfc)
                  simp only [List.length_append, List.length_cons] at hsp
                  omega
                | none =>
                  rw [scanStep_hash1_none hr1 hfc]
                  simp only [List.cons_append, List.nil_append]
                  exact ScanRel.hash1none r1 rest1 p _ hr1 hfc (ih [] _ (by simp))
          · by_cases h4 : isDigitC c
            · rw [scanStep_digit h4]
              simp only [List.singleton_append]
              have h2f : isWsC c = false := by simpa using h2
              refine ScanRel.digit c rest p _ h1 h2f h3 h4 (ih _ _ ?_)
              have hsp := congrArg List.length (scanNumberRest_append rest)
              simp only [List.length_append] at hsp
              omega
            · by_cases h5 : c = '$'
              · subst h5
                rw [scanStep_money]
                simp only [List.singleton_append]
                refine ScanRel.money rest p _ (ih _ _ ?_)
                have hsp := congrArg List.length (scanMoneyRest_append rest)
                simp only [List.length_append] at hsp
                omega
              · by_cases h6 : c = '@'
                · subst h6
                  rw [scanStep_time]
                  simp only [List.singleton_append]
                  refine ScanRel.time rest p _ (ih _ _ ?_)
                  have hsp := congrArg List.length (scanTimeRest_append rest)
                  simp only [List.length_append] at hsp
                  omega
                · by_cases h7 : c = '"'
                  · subst h7
                    cases hq : scanQuoted rest with
                    | some br =>
                      rw [scanStep_quote_some hq]
                      simp only [List.singleton_append]
                      refine ScanRel.quoteSome rest br p _ hq (ih _ _ ?_)
                      have hsp := congrArg List.length (scanQuoted_append rest br hq)
                      simp only [List.length_append] at hsp
                      omega
                    | none =>
                      rw [scanStep_quote_none hq]
                      simp only [List.singleton_append]
                      exact ScanRel.quoteNone rest p _ hq (ih [] _ (by simp))
                  · by_cases h8 : isWordStart c
                    · rw [scanStep_word h8]
                      simp only [List.singleton_append]
                      have h2f : isWsC c = false := by simpa using h2
                      have h4f : isDigitC c = false := by simpa using h4
                      refine ScanRel.word c rest p _ h1 h2f h3 h4f h5 h6 h7 h8 (ih _ _ ?_)
                      have hsp := congrArg List.length (takeWord_append rest)
                      simp only [List.length_append] at hsp
                      omega
                    · have h2f : isWsC c = false := by simpa using h2
                      have h4f : isDigitC c = false := by simpa using h4
                      have h8f : isWordStart c = false := by simpa using h8
                      cases hp : punctType c with
                      | some k =>
                        rw [scanStep_punct h1 h2f h3 h4f h5 h6 h7 h8f hp]
                        simp only [List.singleton_append]
                        exact ScanRel.punct c rest p _ k h1 h2f h3 h4f h5 h6 h7 h8f hp
                          (ih rest (step p c) hrest)
                      | none =>
                        rw [scanStep_other h1 h2f h3 h4f h5 h6 h7 h8f hp]
                        simp only [List.singleton_append]
                        exact ScanRel.other c rest p _ h1 h2f h3 h4f h5 h6 h7 h8f hp
                          (ih rest (step p c) hrest)

set_option maxHeartbeats 1600000 in
theorem scanRel_det {l : List Char} {p : Pos} {r1 : List Item} (h1 : ScanRel l p r1) :
    ∀ r2, ScanRel l p r2 → r1 = r2 := by
  induction h1 with
  | nil p =>
    intro r2 h2
    cases h2
    rfl
  | newline rest p its ih ihdet =>
    intro r2 h2
    cases h2 <;> try ((simp_all +decide); done)
    next its2 ih2 => rw [ihdet its2 ih2]
  | ws c rest p its h1 h2 ih ihdet =>
    intro r2 hh2
    cases hh2 <;> try ((simp_all +decide); done)
    next its2 hb1 hb2 ih2 => rw [ihdet its2 ih2]
  | hashNil p its ih ihdet =>
    intro r2 h2
    cases h2 <;> try ((simp_all +decide); done)
    next its2 ih2 => rw [ihdet its2 ih2]
  | hash2some rest1 ir p its hfc ih ihdet =>
    intro r2 h2
    cases h2 <;> try ((simp_all +decide); done)
    next ir2 its2 hfc2 ih2 =>
      rw [hfc] at hfc2
      injection hfc2 with h3
      subst h3
      rw [ihdet its2 ih2]
  | hash2none rest1 p its hfc ih ihdet =>
    intro r2 h2
    cases h2 <;> try ((simp_all +decide); done)
    next its2 hfc2 ih2 => rw [ihdet its2 ih2]
  | hash1some r1 rest1 ir p its hr1 hfc ih ihdet =>
    intro r2 h2
    cases h2 <;> try ((simp_all +decide); done)
    next ir2 its2 hr1b hfc2 ih2 =>
      rw [hfc] at hfc2
      injection hfc2 with h3
      subst h3
      rw [ihdet its2 ih2]
  | hash1none r1 rest1 p its hr1 hfc ih ihdet =>
    intro r2 h2
    cases h2 <;> try ((simp_all +decide); done)
    next its2 hr1b hfc2 ih2 => rw [ihdet its2 ih2]
  | digit c rest p its h1 h2 h3 h4 ih ihdet =>
    intro r2 hh2
    cases hh2 <;> try ((simp_all +decide); done)
    next its2 hb1 hb2 hb3 hb4 ih2 => rw [ihdet its2 ih2]
  | money rest p its ih ihdet =>
    intro r2 h2
    cases h2 <;> try ((simp_all +decide); done)
    next its2 ih2 => rw [ihdet its2 ih2]
  | time rest p its ih ihdet =>
    intro r2 h2
    cases h2 <;> try ((simp_all +decide); done)
    next its2 ih2 => rw [ihdet its2 ih2]
  | quoteSome rest br p its hq ih ihdet =>
    intro r2 h2
    cases h2 <;> try ((simp_all +decide); done)
    next br2 its2 hq2 ih2 =>
      rw [hq] at hq2
      injection hq2 with h3
      subst h3
      rw [ihdet its2 ih2]
  | quoteNone rest p its hq ih ihdet =>
    intro r2 h2
    cases h2 <;> try ((simp_all +decide); done)
    next its2 hq2 ih2 => rw [ihdet its2 ih2]
  | word c rest p its h1 h2 h3 h4 h5 h6 h7 h8 ih ihdet =>
    intro r2 hh2
    cases hh2 <;> try ((simp_all +decide); done)
    next its2 hb1 hb2 hb3 hb4 hb5 hb6 hb7 hb8 ih2 => rw [ihdet its2 ih2]
  | punct c rest p its k h1 h2 h3 h4 h5 h6 h7 h8 hp ih ihdet =>
    intro r2 hh2
    cases hh2 <;> try ((simp_all +decide); done)
    next its2 k2 hb1 hb2 hb3 hb4 hb5 hb6 hb7 hb8 hp2 ih2 =>
      rw [hp] at hp2
      injection hp2 with h3
      subst h3
      rw [ihdet its2 ih2]
  | other c rest p its h1 h2 h3 h4 h5 h6 h7 h8 hp ih ihdet =>
    intro r2 hh2
    cases hh2 <;> try ((simp_all +decide); done)
    next its2 hb1 hb2 hb3 hb4 hb5 hb6 hb7 hb8 hp2 ih2 => rw [ihdet its2 ih2]

/-- C7: scanning is deterministic: the executable scan realizes the
Scanning Engine relation from the initial position, and any two runs of
the relation on the same buffer and position produce the same emissions,
hence identical token sequences (kinds, lexemes, lines, columns, in
order) and identical had-error flags. -/
theorem c7_deterministic :
    (∀ l : List Char, ScanRel l initPos (scanItems l))
    ∧ (∀ (l : List Char) (p : Pos) (r1 r2 : List Item),
        ScanRel l p r1 → ScanRel l p r2 →
        r1 = r2
        ∧ tokensOf r1 = tokensOf r2
        ∧ (tokensOf r1).any (fun t => decide (t.kind = TokenType.ERROR))
            = (tokensOf r2).any (fun t => decide (t.kind = TokenType.ERROR))) := by
  refine ⟨fun l => scanRel_scanItemsF l.length l initPos le_rfl, ?_⟩
  intro l p r1 r2 h1 h2
  have he := scanRel_det h1 r2 h2
  subst he
  exact ⟨rfl, rfl, rfl⟩

/-- Witness for C7: the engine relation holds of the executable scan of
the buffer x, and two runs over it agree. -/
theorem c7_witness :
    ScanRel ("x".data) initPos (scanItems ("x".data))
    ∧ tokensOf (scanItems ("x".data)) = tokensOf (scanItems ("x".data)) := by
  have hrel := c7_deterministic.1 ("x".data)
  exact ⟨hrel, (c7_deterministic.2 ("x".data) initPos _ _ hrel hrel).2.1⟩

end MBL
